import Mathlib

/-
Verification of the model-selection and forecasting core of the
zolo-data-warehouse repository, shallowly embedded from
bin/modelling/lib.py (evaluate_arima_model, evaluate_models) and
bin/modelling/arima_models.py (transform, model).

Modelling conventions:
* Numeric values are rationals (the float32 cast in evaluate_models is the
  identity in this exact-arithmetic model).
* The external ARIMA fitting routine (statsmodels) is not part of the
  repository; it is treated, as the spec prescribes, as a stateless function
  from (history, order) to an optional fitted model: `none` models a raised
  fitting exception.  A fitted model handle is an opaque type `M` together
  with a forecast function `fc` returning (point prediction, standard error),
  embedding `model_fit.forecast()[0]` and `forecast()[1]`.
* Python exceptions escaping a function are modelled by `Option`: a `none`
  result of the embedded function corresponds to the Python function raising.
* Entity identifiers (profile_name strings) are modelled as naturals with
  their order; week_date timestamps are modelled as naturals with their order.
-/

namespace ZoloDW

/-- An ARIMA order triple (p, d, q). -/
abbrev ArimaOrder := ℕ × ℕ × ℕ

variable {M : Type} (fit : List ℚ → ArimaOrder → Option M) (fc : M → ℚ × ℚ)

/-- Mean squared error between actual values and predictions
(sklearn.metrics.mean_squared_error on two equal-length sequences). -/
def mse (actual preds : List ℚ) : ℚ :=
  (List.zipWith (fun a p => (a - p) ^ 2) actual preds).sum / actual.length

/-- The walk-forward loop of evaluate_arima_model (lib.py lines 17-29).
`history` is the growing history list, `modelFit` the current value of the
Python local `model_fit` (`none` while still unassigned), `preds` the
accumulated predictions.  Each step fits a model on the current history
(`none` = fitting raised, aborting the whole evaluation), records the
one-step forecast, then appends the actual test value to history.  On an
empty test list with `model_fit` unassigned the Python code raises when
evaluating the final expression, hence `none`. -/
def walkForward (order : ArimaOrder) (history : List ℚ) (test : List ℚ)
    (modelFit : Option M) (preds : List ℚ) : Option (List ℚ × M) :=
  match test with
  | [] => modelFit.map fun m => (preds, m)
  | t :: ts =>
    match fit history order with
    | none => none
    | some m => walkForward order (history ++ [t]) ts (some m) (preds ++ [(fc m).1])

/-- evaluate_arima_model (lib.py lines 5-33): split X at
train_size = int(len(X) * 0.75) (exact in binary floating point, hence
(3 * |X|) / 4 in natural division), run the walk-forward loop starting from
the training segment, and return the mean squared error on the held-out
suffix together with the last fitted model (the Python local `model_fit`
as it stands after the loop). -/
def evaluate_arima_model (X : List ℚ) (order : ArimaOrder) : Option (ℚ × M) :=
  let train_size := 3 * X.length / 4
  let train := X.take train_size
  let test := X.drop train_size
  (walkForward fit fc order train test none []).map fun r => (mse test r.1, r.2)

/-- The candidate grid of evaluate_models (lib.py lines 51-56): p is the
outer loop, d the middle loop, q the inner loop, each traversing its input
list in order. -/
def candidateGrid (p_values d_values q_values : List ℕ) : List ArimaOrder :=
  p_values.flatMap fun p => d_values.flatMap fun d => q_values.map fun q => (p, d, q)

/-- The state of the best-so-far accumulator of evaluate_models:
(best_cfg, best_score, best_model), initialised to (None, inf, None);
`⊤ : WithTop ℚ` models float("inf"). -/
abbrev SearchState (M : Type) := Option ArimaOrder × WithTop ℚ × Option M

/-- One iteration of the evaluate_models grid loop (lib.py lines 58-68):
evaluate the candidate; on an exception (`none`) leave the state unchanged
(the bare `except: continue`); otherwise update the best-so-far exactly when
the new error is strictly lower. -/
def searchStep (X : List ℚ) (best : SearchState M) (order : ArimaOrder) :
    SearchState M :=
  match evaluate_arima_model fit fc X order with
  | none => best
  | some (m, mdl) =>
    if (m : WithTop ℚ) < best.2.1 then (some order, (m : WithTop ℚ), some mdl)
    else best

/-- The grid-search fold of evaluate_models over an explicit candidate
list. -/
def searchBest (X : List ℚ) (cands : List ArimaOrder) : SearchState M :=
  cands.foldl (searchStep fit fc X) (none, ⊤, none)

/-- evaluate_models (lib.py lines 36-70): exhaustive grid search over all
(p, d, q) combinations, returning (best_cfg, best_score, best_model).
The astype float32 cast is the identity here. -/
def evaluate_models (X : List ℚ) (p_values d_values q_values : List ℕ) :
    SearchState M :=
  searchBest fit fc X (candidateGrid p_values d_values q_values)

/-- Admissible candidates, in enumeration order, paired with their error
score and fitted model: the sublist of the grid on which
evaluate_arima_model does not raise. -/
def evalResults (X : List ℚ) (cands : List ArimaOrder) :
    List (ArimaOrder × ℚ × M) :=
  cands.filterMap fun c => (evaluate_arima_model fit fc X c).map fun r => (c, r)

/-- Reference description of the one-step forecast of walk-forward step t:
fit the model on the training segment extended by the first t test values and
take its point forecast; `none` when that fit raises. -/
def forecastAt (order : ArimaOrder) (train test : List ℚ) (t : ℕ) : Option ℚ :=
  (fit (train ++ test.take t) order).map fun m => (fc m).1

/-- A row of the long-format demand table handed to transform and model
(arima_models.py): one observation (profile_name, week_date, weight). -/
structure Row where
  profile_name : ℕ
  week_date : ℕ
  weight : ℚ
deriving DecidableEq

/-- Stable insertion of `a` into `l` using the Boolean comparator `le`. -/
def orderedInsertB {α : Type} (le : α → α → Bool) (a : α) : List α → List α
  | [] => [a]
  | b :: l => if le a b then a :: b :: l else b :: orderedInsertB le a l

/-- Structural insertion sort with a Boolean comparator; embeds the
ascending sorts performed by pandas (sort_values, sorted groupby keys). -/
def insertionSortB {α : Type} (le : α → α → Bool) : List α → List α
  | [] => []
  | a :: l => orderedInsertB le a (insertionSortB le l)

/-- Ascending lexicographic comparator on groupby keys
(week_date first, then profile_name). -/
def keyLe (a b : ℕ × ℕ) : Bool := a.1 < b.1 || (a.1 == b.1 && a.2 ≤ b.2)

/-- The aggregated row transform builds for one groupby key (week_date,
profile_name): the weight is the sum over all retained rows with that key. -/
def groupRow (kept : List Row) (k : ℕ × ℕ) : Row :=
  { profile_name := k.2, week_date := k.1,
    weight := ((kept.filter fun r =>
      r.week_date = k.1 ∧ r.profile_name = k.2).map Row.weight).sum }

/-- transform (arima_models.py lines 149-169): restrict to rows strictly
before the forecast start; compute week_count, the per-profile count of rows
surviving that restriction; keep only rows whose profile has week_count
strictly above 5; then groupby (week_date, profile_name) with summed weight,
keys emitted in ascending lexicographic order as pandas does. -/
def transform (forecast_start : ℕ) (data : List Row) : List Row :=
  let cut := data.filter fun r => r.week_date < forecast_start
  let kept := cut.filter fun r =>
    5 < (cut.filter fun r2 => r2.profile_name = r.profile_name).length
  let keys := insertionSortB keyLe
    ((kept.map fun r => (r.week_date, r.profile_name)).dedup)
  keys.map (groupRow kept)

/-- One row of the meta_df result table assembled by model
(arima_models.py lines 184-222).  lower_bound and upper_bound are the
columns added after the entity loop; forecast_start the batch stamp. -/
structure MetaRow where
  profile_name : ℕ
  best_config : Option ArimaOrder
  mse : WithTop ℚ
  prediction : ℚ
  std_error : ℚ
  lower_bound : ℚ
  upper_bound : ℚ
  forecast_start : ℕ
deriving DecidableEq

/-- The distinct profile identifiers in ascending order:
model_data.profile_name.sort_values().unique() (arima_models.py line 194). -/
def sortedEntities (rows : List Row) : List ℕ :=
  (insertionSortB (fun a b => a ≤ b) (rows.map Row.profile_name)).dedup

/-- The per-entity loop of model (arima_models.py lines 194-213) over an
explicit entity list: for each profile, grid-search its weight series and
read the one-step forecast off the returned best model.  When
evaluate_models returns the no-admissible-order sentinel, best_model is
None and `best_model.forecast()` raises AttributeError, aborting the whole
batch: modelled by `none`. -/
def modelLoop (forecast_start : ℕ) (model_data : List Row)
    (p_values d_values q_values : List ℕ) :
    List ℕ → Option (List MetaRow)
  | [] => some []
  | zolo_id :: rest =>
    let X := (model_data.filter fun r => r.profile_name = zolo_id).map Row.weight
    match evaluate_models fit fc X p_values d_values q_values with
    | (_, _, none) => none
    | (best_cfg, best_mse, some best_model) =>
      match modelLoop forecast_start model_data p_values d_values q_values rest with
      | none => none
      | some tail =>
        some ({ profile_name := zolo_id, best_config := best_cfg,
                mse := best_mse,
                prediction := (fc best_model).1,
                std_error := (fc best_model).2,
                lower_bound := (fc best_model).1 - 196 / 100 * (fc best_model).2,
                upper_bound := (fc best_model).1 + 196 / 100 * (fc best_model).2,
                forecast_start := forecast_start } :: tail)

/-- model (arima_models.py lines 172-222): run the entity loop over all
distinct profiles in ascending order, producing one MetaRow per profile;
`none` models the batch dying with an uncaught exception. -/
def model (forecast_start : ℕ) (model_data : List Row)
    (p_values d_values q_values : List ℕ) : Option (List MetaRow) :=
  modelLoop fit fc forecast_start model_data p_values d_values q_values
    (sortedEntities model_data)

/-- Count of rows of entity `e` lying strictly before the forecast start:
the week_count column of transform. -/
def periodRowCount (forecast_start : ℕ) (data : List Row) (e : ℕ) : ℕ :=
  ((data.filter fun r => r.week_date < forecast_start).filter
    fun r => r.profile_name = e).length

/-- Number of distinct week_date values of entity `e` strictly before the
forecast start. -/
def distinctPeriodCount (forecast_start : ℕ) (data : List Row) (e : ℕ) : ℕ :=
  (((data.filter fun r => r.week_date < forecast_start).filter
    (fun r => r.profile_name = e)).map Row.week_date).dedup.length

/-- The best-so-far state corresponding to one admissible evaluation. -/
def stateOf (e : ArimaOrder × ℚ × M) : SearchState M :=
  (some e.1, (e.2.1 : WithTop ℚ), some e.2.2)

/-- The grid-loop update of evaluate_models restricted to admissible
evaluations. -/
def entStep (st : SearchState M) (e : ArimaOrder × ℚ × M) : SearchState M :=
  if (e.2.1 : WithTop ℚ) < st.2.1 then stateOf e else st

/-- Keep the incumbent unless the challenger has strictly lower error. -/
def bestOf (a e : ArimaOrder × ℚ × M) : ArimaOrder × ℚ × M :=
  if e.2.1 < a.2.1 then e else a

/-- A transparent stand-in for the external fitting routine, used to settle
claims on concrete inputs: fitting always succeeds and the fitted model
handle is exactly the history the model was fit on. -/
def recFit : List ℚ → ArimaOrder → Option (List ℚ) := fun h _ => some h

/-- Forecast reader for recFit model handles: the point prediction is the
first value of the fitted history, the standard error is 1. -/
def recFc : List ℚ → ℚ × ℚ := fun h => (h.headD 0, 1)

/-- A fitting routine that raises on every order with p = 1, used to
exhibit per-candidate failure handling. -/
def pickyFit : List ℚ → ArimaOrder → Option (List ℚ) :=
  fun h o => if o.1 = 1 then none else some h

/-- A fitting routine that always raises. -/
def failFit : List ℚ → ArimaOrder → Option (List ℚ) := fun _ _ => none

/-- A fitting routine that raises whenever the history contains the value
99: series containing 99 in the training segment admit no order at all. -/
def fragileFit : List ℚ → ArimaOrder → Option (List ℚ) :=
  fun h _ => if (99 : ℚ) ∈ h then none else some h

lemma orderedInsertB_perm {α : Type} (le : α → α → Bool) (a : α) (l : List α) :
    (orderedInsertB le a l).Perm (a :: l) := by
  induction l with
  | nil => simp [orderedInsertB]
  | cons b l ih =>
    by_cases h : le a b
    · simp [orderedInsertB, h]
    · simp only [orderedInsertB, h, if_neg]
      exact ((ih.cons b).trans (List.Perm.swap a b l)).symm.symm

lemma insertionSortB_perm {α : Type} (le : α → α → Bool) (l : List α) :
    (insertionSortB le l).Perm l := by
  induction l with
  | nil => simp [insertionSortB]
  | cons a l ih =>
    exact (orderedInsertB_perm le a (insertionSortB le l)).trans (ih.cons a)

lemma mem_insertionSortB {α : Type} (le : α → α → Bool) (a : α) (l : List α) :
    a ∈ insertionSortB le l ↔ a ∈ l :=
  (insertionSortB_perm le l).mem_iff

/-- Specification of the walk-forward loop: on success it has appended one
forecast per test point, the forecast at step t is the point forecast of a
model fitted on the history extended by the first t test values, and the
returned model handle is the one fitted at the last step, i.e. on the
history extended by all test values but the last. -/
lemma walkForward_some {order : ArimaOrder} :
    ∀ (test history : List ℚ) (mf : Option M) (ps : List ℚ) (res : List ℚ × M),
      walkForward fit fc order history test mf ps = some res →
      ∃ preds, res.1 = ps ++ preds ∧ preds.length = test.length ∧
        (∀ t, t < test.length →
          preds.get? t = forecastAt fit fc order history test t) ∧
        ((test = [] ∧ mf = some res.2) ∨
         (test ≠ [] ∧ fit (history ++ test.dropLast) order = some res.2)) := by
  intro test
  induction test with
  | nil =>
    intro history mf ps res h
    simp only [walkForward] at h
    rcases mf with _ | m
    · exact absurd h (by simp)
    · simp only [Option.map_some'] at h
      injection h with h2
      subst h2
      exact ⟨[], by simp, rfl, by simp, Or.inl ⟨rfl, rfl⟩⟩
  | cons t ts ih =>
    intro history mf ps res h
    simp only [walkForward] at h
    rcases hfit : fit history order with _ | m
    · rw [hfit] at h; exact absurd h (by simp)
    · rw [hfit] at h
      obtain ⟨preds₂, hres, hlen, hget, hlast⟩ :=
        ih (history ++ [t]) (some m) (ps ++ [(fc m).1]) res h
      refine ⟨(fc m).1 :: preds₂, by simpa using hres, by simpa using hlen, ?_, ?_⟩
      · intro u hu
        match u with
        | 0 => simp [forecastAt, hfit]
        | v + 1 =>
          have hv : v < ts.length := by simpa using hu
          have h2 := hget v hv
          simp only [List.get?_cons_succ, forecastAt, List.take_succ_cons]
          rw [List.append_cons history t (List.take v ts)]
          simpa [forecastAt] using h2
      · rcases hlast with ⟨hts, hm⟩ | ⟨hts, hm⟩
        · subst hts
          refine Or.inr ⟨by simp, ?_⟩
          have hm2 : m = res.2 := by simpa using hm
          simp [hfit, hm2]
        · refine Or.inr ⟨by simp, ?_⟩
          rcases ts with _ | ⟨b, l⟩
          · exact absurd rfl hts
          · rw [List.append_assoc] at hm
            simp only [List.singleton_append] at hm
            exact hm

/-- The walk-forward loop as invoked by evaluate_arima_model: success means
one forecast per test point, each produced by a model fitted on the data
available strictly before that point, and the final model handle fitted on
everything but the last test value. -/
lemma walkForward_run {order : ArimaOrder} {train test : List ℚ}
    {res : List ℚ × M}
    (h : walkForward fit fc order train test none [] = some res) :
    res.1.length = test.length ∧
    (∀ t, t < test.length →
      res.1.get? t = forecastAt fit fc order train test t) ∧
    test ≠ [] ∧ fit (train ++ test.dropLast) order = some res.2 := by
  obtain ⟨preds, hres, hlen, hget, hlast⟩ :=
    walkForward_some fit fc test train none [] res h
  simp only [List.nil_append] at hres
  subst hres
  rcases hlast with ⟨_, hm⟩ | ⟨hts, hm⟩
  · simp at hm
  · exact ⟨hlen, hget, hts, hm⟩

lemma searchStep_none {X : List ℚ} {st : SearchState M} {c : ArimaOrder}
    (h : evaluate_arima_model fit fc X c = none) :
    searchStep fit fc X st c = st := by
  simp [searchStep, h]

lemma searchStep_some {X : List ℚ} {st : SearchState M} {c : ArimaOrder}
    {r : ℚ × M} (h : evaluate_arima_model fit fc X c = some r) :
    searchStep fit fc X st c = entStep st (c, r) := by
  obtain ⟨m, mdl⟩ := r
  simp [searchStep, h, entStep, stateOf]

/-- The grid fold of evaluate_models only ever reacts to the admissible
evaluations, in enumeration order. -/
lemma foldl_searchStep_eq_entries (X : List ℚ) :
    ∀ (cands : List ArimaOrder) (st : SearchState M),
      cands.foldl (searchStep fit fc X) st
        = (evalResults fit fc X cands).foldl entStep st := by
  intro cands
  induction cands with
  | nil => intro st; simp [evalResults]
  | cons c cs ih =>
    intro st
    rcases h : evaluate_arima_model fit fc X c with _ | r
    · simp [evalResults, List.filterMap_cons, h, searchStep_none fit fc h, ih,
        evalResults]
    · simp only [List.foldl_cons, searchStep_some fit fc h, ih, evalResults,
        List.filterMap_cons, h, Option.map_some']

lemma entStep_stateOf (a e : ArimaOrder × ℚ × M) :
    entStep (stateOf a) e = stateOf (bestOf a e) := by
  by_cases h : e.2.1 < a.2.1
  · simp [entStep, stateOf, bestOf, h, WithTop.coe_lt_coe]
  · simp [entStep, stateOf, bestOf, h, WithTop.coe_lt_coe]

lemma foldl_entStep_stateOf (l : List (ArimaOrder × ℚ × M)) :
    ∀ a, l.foldl entStep (stateOf a) = stateOf (l.foldl bestOf a) := by
  induction l with
  | nil => intro a; rfl
  | cons e l ih => intro a; simp only [List.foldl_cons, entStep_stateOf, ih]

/-- A strict-improvement fold keeps the first element attaining the minimum:
either nothing beat the incumbent, or the result splits the list into
earlier candidates it strictly beats and later ones it weakly beats. -/
lemma foldl_bestOf_spec :
    ∀ (l : List (ArimaOrder × ℚ × M)) (a : ArimaOrder × ℚ × M),
      (l.foldl bestOf a = a ∧ ∀ x ∈ l, a.2.1 ≤ x.2.1) ∨
      (∃ l₁ r l₂, l = l₁ ++ r :: l₂ ∧ l.foldl bestOf a = r ∧ r.2.1 < a.2.1 ∧
        (∀ x ∈ l₁, r.2.1 < x.2.1) ∧ (∀ x ∈ l₂, r.2.1 ≤ x.2.1)) := by
  intro l
  induction l with
  | nil => intro a; exact Or.inl ⟨rfl, by simp⟩
  | cons e l ih =>
    intro a
    by_cases h : e.2.1 < a.2.1
    · have hstep : (e :: l).foldl bestOf a = l.foldl bestOf e := by
        simp [List.foldl_cons, bestOf, h]
      rcases ih e with ⟨heq, hall⟩ | ⟨l₁, r, l₂, hdec, hr, hlt, hb, ha⟩
      · exact Or.inr ⟨[], e, l, by simp, by rw [hstep, heq], h, by simp, hall⟩
      · refine Or.inr ⟨e :: l₁, r, l₂, by simp [hdec], by rw [hstep, hr],
          lt_trans hlt h, ?_, ha⟩
        intro x hx
        rcases List.mem_cons.mp hx with rfl | hx
        · exact hlt
        · exact hb x hx
    · have hstep : (e :: l).foldl bestOf a = l.foldl bestOf a := by
        simp [List.foldl_cons, bestOf, h]
      rcases ih a with ⟨heq, hall⟩ | ⟨l₁, r, l₂, hdec, hr, hlt, hb, ha⟩
      · refine Or.inl ⟨by rw [hstep, heq], ?_⟩
        intro x hx
        rcases List.mem_cons.mp hx with rfl | hx
        · exact le_of_not_lt h
        · exact hall x hx
      · refine Or.inr ⟨e :: l₁, r, l₂, by simp [hdec], by rw [hstep, hr],
          hlt, ?_, ha⟩
        intro x hx
        rcases List.mem_cons.mp hx with rfl | hx
        · exact lt_of_lt_of_le hlt (le_of_not_lt h)
        · exact hb x hx

lemma foldl_searchStep_all_none (X : List ℚ) :
    ∀ (cands : List ArimaOrder) (st : SearchState M),
      (∀ c ∈ cands, evaluate_arima_model fit fc X c = none) →
      cands.foldl (searchStep fit fc X) st = st := by
  intro cands
  induction cands with
  | nil => intro st _; rfl
  | cons c cs ih =>
    intro st h
    rw [List.foldl_cons, searchStep_none fit fc (h c (by simp))]
    exact ih st fun c2 hc2 => h c2 (List.mem_cons_of_mem c hc2)

/-- An entity appears in the output of transform exactly when its count of
rows surviving the date cut strictly exceeds 5. -/
lemma transform_mem_iff (fs : ℕ) (data : List Row) (e : ℕ) :
    (∃ r ∈ transform fs data, r.profile_name = e) ↔
      5 < periodRowCount fs data e := by
  constructor
  · rintro ⟨r, hr, rfl⟩
    simp only [transform, List.mem_map] at hr
    obtain ⟨k, hk, hkr⟩ := hr
    rw [mem_insertionSortB, List.mem_dedup] at hk
    simp only [List.mem_map] at hk
    obtain ⟨row, hrow, hpair⟩ := hk
    rw [List.mem_filter] at hrow
    obtain ⟨_, hcount⟩ := hrow
    have hk2 : k.2 = row.profile_name := by rw [← hpair]
    have hre : r.profile_name = k.2 := by rw [← hkr]; rfl
    rw [hre, hk2]
    simpa [periodRowCount] using hcount
  · intro h5
    have hpos : 0 < periodRowCount fs data e := by omega
    rw [periodRowCount, List.length_pos_iff_exists_mem] at hpos
    obtain ⟨row, hrow⟩ := hpos
    rw [List.mem_filter] at hrow
    obtain ⟨hcut, hpe⟩ := hrow
    have hpe2 : row.profile_name = e := by simpa using hpe
    have hkept : row ∈ (data.filter fun r => r.week_date < fs).filter
        (fun r => 5 < ((data.filter fun r3 => r3.week_date < fs).filter
          fun r2 => r2.profile_name = r.profile_name).length) := by
      rw [List.mem_filter]
      refine ⟨hcut, ?_⟩
      rw [hpe2]
      simpa [periodRowCount] using h5
    have hmem : e ∈ (transform fs data).map Row.profile_name := by
      simp only [transform, List.map_map, List.mem_map, Function.comp]
      refine ⟨(row.week_date, e), ?_, rfl⟩
      rw [mem_insertionSortB, List.mem_dedup]
      simp only [List.mem_map]
      exact ⟨row, hkept, by rw [hpe2]⟩
    obtain ⟨r, hr, hre⟩ := List.mem_map.mp hmem
    exact ⟨r, hr, hre⟩

/-- The number of rows transform emits for one entity is at most the number
of distinct week_date values that entity has among the rows surviving the
date cut (groupby collapses duplicate periods). -/
lemma transform_entity_row_count (fs : ℕ) (data : List Row) (e : ℕ) :
    ((transform fs data).filter fun r => r.profile_name = e).length ≤
      distinctPeriodCount fs data e := by
  classical
  simp only [transform]
  rw [List.filter_map, List.length_map]
  set cut := data.filter fun r => r.week_date < fs with hcut
  set kept := cut.filter (fun r =>
      5 < (cut.filter fun r2 => r2.profile_name = r.profile_name).length)
    with hkept
  set kd := (kept.map fun r => (r.week_date, r.profile_name)).dedup with hkd
  have hfil : List.filter ((fun r : Row => decide (r.profile_name = e)) ∘
        groupRow kept) (insertionSortB keyLe kd)
      = List.filter (fun k => decide (k.2 = e)) (insertionSortB keyLe kd) :=
    List.filter_congr fun k _ => rfl
  rw [hfil]
  have hlen : ((insertionSortB keyLe kd).filter
      fun k => decide (k.2 = e)).length =
      (kd.filter fun k => decide (k.2 = e)).length :=
    ((insertionSortB_perm keyLe kd).filter _).length_eq
  rw [hlen]
  have hnd : (kd.filter fun k : ℕ × ℕ => decide (k.2 = e)).Nodup := by
    rw [hkd]
    exact (List.nodup_dedup _).filter _
  have hndmap : ((kd.filter fun k : ℕ × ℕ => decide (k.2 = e)).map
      Prod.fst).Nodup := by
    refine hnd.map_on ?_
    intro x hx y hy hxy
    have hxe : x.2 = e := by simpa using List.of_mem_filter hx
    have hye : y.2 = e := by simpa using List.of_mem_filter hy
    exact Prod.ext hxy (hxe.trans hye.symm)
  have hsub : ((kd.filter fun k : ℕ × ℕ => decide (k.2 = e)).map Prod.fst) ⊆
      ((cut.filter fun r => r.profile_name = e).map Row.week_date).dedup := by
    intro w hw
    simp only [List.mem_map] at hw
    obtain ⟨k, hk, hk1⟩ := hw
    have hke : k.2 = e := by simpa using List.of_mem_filter hk
    have hkmem : k ∈ kd := List.mem_of_mem_filter hk
    rw [hkd, List.mem_dedup] at hkmem
    simp only [List.mem_map] at hkmem
    obtain ⟨row, hrow, hpair⟩ := hkmem
    have hrcut : row ∈ cut := List.mem_of_mem_filter hrow
    have hrw : row.week_date = k.1 := by rw [← hpair]
    have hrp : row.profile_name = k.2 := by rw [← hpair]
    rw [List.mem_dedup]
    simp only [List.mem_map]
    refine ⟨row, ?_, by rw [hrw, hk1]⟩
    rw [List.mem_filter]
    exact ⟨hrcut, by simp [hrp, hke]⟩
  have hgoal : ((cut.filter fun r => r.profile_name = e).map
      Row.week_date).dedup.length = distinctPeriodCount fs data e := by
    rw [distinctPeriodCount, hcut]
  rw [← hgoal]
  calc ((kd.filter fun k : ℕ × ℕ => decide (k.2 = e)).length)
      = ((kd.filter fun k : ℕ × ℕ => decide (k.2 = e)).map Prod.fst).length :=
        (List.length_map _ _).symm
    _ ≤ _ := (hndmap.subperm hsub).length_le

/-- Every record assembled by the entity loop of model carries the
1.96-sigma bounds derived from its own prediction and standard error. -/
lemma modelLoop_bounds (fs : ℕ) (md : List Row) (ps ds qs : List ℕ) :
    ∀ (ents : List ℕ) (recs : List MetaRow),
      modelLoop fit fc fs md ps ds qs ents = some recs →
      ∀ r ∈ recs,
        r.lower_bound = r.prediction - 196 / 100 * r.std_error ∧
        r.upper_bound = r.prediction + 196 / 100 * r.std_error := by
  intro ents
  induction ents with
  | nil =>
    intro recs h r hr
    simp only [modelLoop] at h
    injection h with h2
    subst h2
    exact absurd hr (by simp)
  | cons z rest ih =>
    intro recs h r hr
    simp only [modelLoop] at h
    rcases he : evaluate_models fit fc
        ((md.filter fun row => row.profile_name = z).map Row.weight)
        ps ds qs with ⟨cfg, sc, mo⟩
    rw [he] at h
    rcases mo with _ | mdl
    · exact absurd h (by simp)
    · rcases hrec : modelLoop fit fc fs md ps ds qs rest with _ | tail
      · rw [hrec] at h
        exact absurd h (by simp)
      · rw [hrec] at h
        injection h with h2
        subst h2
        rcases List.mem_cons.mp hr with rfl | hr2
        · exact ⟨rfl, rfl⟩
        · exact ih tail hrec r hr2

/-- Claim C1, counterexample.  The claim states that the fitted model
returned by evaluate_arima_model (and used downstream for the forecast) is
refit on the entire available history including the final test value.  With
the transparent fitting routine recFit — whose model handle is exactly the
history it was fit on — the model returned for the series [1,2,3,4] was fit
on [1,2,3] only, a strict initial segment, not on the full series: the code
returns the model fitted at the last walk-forward step and never refits. -/
theorem claim1_counterexample :
    (evaluate_arima_model recFit recFc [1, 2, 3, 4] (0, 0, 0)).map Prod.snd
      = some [1, 2, 3] ∧
    recFit [1, 2, 3, 4] (0, 0, 0) = some [1, 2, 3, 4] ∧
    ([1, 2, 3] : List ℚ) ≠ [1, 2, 3, 4] := by
  refine ⟨by decide, by decide, by decide⟩

/-- Claim C1, amended.  For every sequence and admissible order, the fitted
model returned by evaluate_arima_model (the one the Forecast Aggregator
reads its point prediction and standard error from) is the model fitted at
the final walk-forward step, i.e. fit on the entire available history
except the final test value — a model fit on X.dropLast, not on X. -/
theorem claim1_final_model_fit_without_last_value (X : List ℚ)
    (order : ArimaOrder) (score : ℚ) (m : M)
    (h : evaluate_arima_model fit fc X order = some (score, m)) :
    X ≠ [] ∧ fit X.dropLast order = some m := by
  simp only [evaluate_arima_model] at h
  rcases hw : walkForward fit fc order (X.take (3 * X.length / 4))
      (X.drop (3 * X.length / 4)) none [] with _ | res
  · rw [hw] at h; exact absurd h (by simp)
  · rw [hw] at h
    simp only [Option.map_some'] at h
    injection h with h2
    obtain ⟨_, hm⟩ := Prod.mk.inj h2
    obtain ⟨_, _, hne, hfit⟩ := walkForward_run fit fc hw
    rcases hd : X.drop (3 * X.length / 4) with _ | ⟨b, l⟩
    · exact absurd hd hne
    · have hXne : X ≠ [] := by
        intro hX
        rw [hX] at hd
        simp at hd
      refine ⟨hXne, ?_⟩
      rw [hd] at hfit
      have hsplit : X.take (3 * X.length / 4) ++ b :: l = X := by
        rw [← hd]
        exact List.take_append_drop _ _
      have hdl : X.dropLast = X.take (3 * X.length / 4) ++ (b :: l).dropLast := by
        conv_lhs => rw [← hsplit]
        exact List.dropLast_append_cons
      rw [hdl, ← hm]
      exact hfit

/-- Claim C1, amended, witness at a concrete input. -/
theorem claim1_final_model_fit_without_last_value_witness :
    ∃ (score : ℚ) (m : List ℚ),
      evaluate_arima_model recFit recFc [1, 2, 3, 4] (0, 0, 0)
        = some (score, m) ∧
      ([1, 2, 3, 4] : List ℚ) ≠ [] ∧
      recFit ([1, 2, 3, 4] : List ℚ).dropLast (0, 0, 0) = some m := by
  obtain ⟨hne, hfit⟩ := claim1_final_model_fit_without_last_value recFit recFc
    [1, 2, 3, 4] (0, 0, 0) _ _ rfl
  exact ⟨_, _, rfl, hne, hfit⟩

/-- Claim C2 (code bug).  The claim states that an entity for which every
candidate order fails is skipped by the Forecast Aggregator, which emits no
record for it and continues with the remaining entities without raising.
In the code, evaluate_models returns best_model = None for such an entity
and model() immediately calls best_model.forecast(), raising
AttributeError and killing the whole batch.  Concretely: profile 0 admits
no order under fragileFit (its history contains 99), profile 1 is
perfectly admissible — yet the batch produces no table at all (`none`)
instead of a one-row table for profile 1. -/
theorem claim2_no_admissible_order_crashes_batch :
    model fragileFit recFc 0
      [⟨0, 0, 99⟩, ⟨0, 1, 99⟩, ⟨0, 2, 99⟩, ⟨0, 3, 99⟩,
       ⟨1, 0, 1⟩, ⟨1, 1, 2⟩, ⟨1, 2, 3⟩, ⟨1, 3, 4⟩] [0] [0] [0] = none ∧
    (evaluate_models fragileFit recFc [1, 2, 3, 4] [0] [0] [0]).2.2
      = some [1, 2, 3] := by
  refine ⟨by decide, by decide⟩

/-- Claim C3: the one-step forecast recorded at walk-forward step t is a
function only of the training segment and the test values strictly before
t; changing test values at index t or later leaves the forecast at step t
unchanged. -/
theorem claim3_no_lookahead (order : ArimaOrder)
    (train test₁ test₂ : List ℚ) (t : ℕ) (p₁ p₂ : List ℚ) (m₁ m₂ : M)
    (hpre : test₁.take t = test₂.take t)
    (h1 : t < test₁.length) (h2 : t < test₂.length)
    (e₁ : walkForward fit fc order train test₁ none [] = some (p₁, m₁))
    (e₂ : walkForward fit fc order train test₂ none [] = some (p₂, m₂)) :
    p₁.get? t = p₂.get? t := by
  obtain ⟨_, hget₁, _, _⟩ := walkForward_run fit fc e₁
  obtain ⟨_, hget₂, _, _⟩ := walkForward_run fit fc e₂
  rw [hget₁ t h1, hget₂ t h2]
  simp only [forecastAt, hpre]

/-- Claim C3, witness: two test suffixes agreeing up to step 1 but differing
at step 1 produce the same recorded forecast at step 1. -/
theorem claim3_no_lookahead_witness :
    ∃ (p₁ p₂ m₁ m₂ : List ℚ),
      walkForward recFit recFc (0, 0, 0) [1, 2] [5, 6] none []
        = some (p₁, m₁) ∧
      walkForward recFit recFc (0, 0, 0) [1, 2] [5, 7] none []
        = some (p₂, m₂) ∧
      ([5, 6] : List ℚ).take 1 = ([5, 7] : List ℚ).take 1 ∧
      p₁.get? 1 = p₂.get? 1 := by
  refine ⟨_, _, _, _, rfl, rfl, by decide, ?_⟩
  exact claim3_no_lookahead recFit recFc (0, 0, 0) [1, 2] [5, 6] [5, 7] 1
    _ _ _ _ (by decide) (by decide) (by decide) rfl rfl

/-- Claim C4: the Order Search enumerates the full Cartesian product of the
supplied ranges (p outer, d middle, q inner, in list order, as candidateGrid
is defined) and returns the admissible candidate with minimum error score;
its error is strictly below every earlier admissible candidate (so equal
scores keep the earlier candidate) and at most every later one. -/
theorem claim4_grid_search_first_minimum (X : List ℚ)
    (p_values d_values q_values : List ℕ)
    (h : evalResults fit fc X (candidateGrid p_values d_values q_values)
      ≠ []) :
    (∀ p d q, (p, d, q) ∈ candidateGrid p_values d_values q_values ↔
      p ∈ p_values ∧ d ∈ d_values ∧ q ∈ q_values) ∧
    ∃ l₁ e l₂,
      evalResults fit fc X (candidateGrid p_values d_values q_values)
        = l₁ ++ e :: l₂ ∧
      (∀ x ∈ l₁, e.2.1 < x.2.1) ∧
      (∀ x ∈ l₂, e.2.1 ≤ x.2.1) ∧
      evaluate_models fit fc X p_values d_values q_values
        = (some e.1, (e.2.1 : WithTop ℚ), some e.2.2) := by
  constructor
  · intro p d q
    constructor
    · intro hm
      simp only [candidateGrid, List.mem_flatMap, List.mem_map] at hm
      obtain ⟨p2, hp, d2, hd, q2, hq, heq⟩ := hm
      obtain ⟨ep, eq2⟩ := Prod.mk.inj heq
      obtain ⟨ed, eq3⟩ := Prod.mk.inj eq2
      subst ep; subst ed; subst eq3
      exact ⟨hp, hd, hq⟩
    · rintro ⟨hp, hd, hq⟩
      simp only [candidateGrid, List.mem_flatMap, List.mem_map]
      exact ⟨p, hp, d, hd, q, hq, rfl⟩
  · rcases hev : evalResults fit fc X (candidateGrid p_values d_values q_values)
      with _ | ⟨e₀, rest⟩
    · exact absurd hev h
    · have hfold : evaluate_models fit fc X p_values d_values q_values
          = (evalResults fit fc X
              (candidateGrid p_values d_values q_values)).foldl entStep
            (none, ⊤, none) := by
        rw [evaluate_models, searchBest,
          foldl_searchStep_eq_entries fit fc X _ _]
      rw [hev, List.foldl_cons] at hfold
      have hfirst : entStep ((none : Option ArimaOrder), (⊤ : WithTop ℚ),
          (none : Option M)) e₀ = stateOf e₀ := by
        simp [entStep]
      rw [hfirst, foldl_entStep_stateOf] at hfold
      rcases foldl_bestOf_spec rest e₀ with ⟨heq, hall⟩ |
        ⟨l₁, r, l₂, hdec, hr, hlt, hb, ha⟩
      · exact ⟨[], e₀, rest, rfl, by simp, hall,
          by rw [hfold, heq]; rfl⟩
      · refine ⟨e₀ :: l₁, r, l₂, by rw [hdec]; rfl, ?_, ha,
          by rw [hfold, hr]; rfl⟩
        intro x hx
        rcases List.mem_cons.mp hx with rfl | hx2
        · exact hlt
        · exact hb x hx2

/-- Claim C4, witness on the grid p ∈ [0, 1], d ∈ [0], q ∈ [0]. -/
theorem claim4_grid_search_first_minimum_witness :
    (∀ p d q, (p, d, q) ∈ candidateGrid [0, 1] [0] [0] ↔
      p ∈ [0, 1] ∧ d ∈ [0] ∧ q ∈ [0]) ∧
    ∃ l₁ e l₂,
      evalResults recFit recFc [1, 2, 3, 4] (candidateGrid [0, 1] [0] [0])
        = l₁ ++ e :: l₂ ∧
      (∀ x ∈ l₁, e.2.1 < x.2.1) ∧
      (∀ x ∈ l₂, e.2.1 ≤ x.2.1) ∧
      evaluate_models recFit recFc [1, 2, 3, 4] [0, 1] [0] [0]
        = (some e.1, (e.2.1 : WithTop ℚ), some e.2.2) :=
  claim4_grid_search_first_minimum recFit recFc [1, 2, 3, 4]
    [0, 1] [0] [0] (by decide)

/-- Claim C5: an entity appears in the Series Preparer output exactly when
its count of rows strictly before the forecast cutoff strictly exceeds 5;
in particular an entity with exactly 5 periods is dropped. -/
theorem claim5_min_history_boundary (fs : ℕ) (data : List Row) (e : ℕ) :
    (∃ r ∈ transform fs data, r.profile_name = e) ↔
      5 < periodRowCount fs data e :=
  transform_mem_iff fs data e

/-- Claim C6: evaluate_arima_model splits the sequence at
floor(0.75 · |X|), and the returned score is the mean squared error
between the one-step walk-forward forecasts (each a function of the data
strictly before its step) and the actual test values, in order. -/
theorem claim6_walk_forward_mse (X : List ℚ) (order : ArimaOrder)
    (score : ℚ) (m : M)
    (h : evaluate_arima_model fit fc X order = some (score, m)) :
    ∃ preds : List ℚ,
      preds.length = (X.drop (3 * X.length / 4)).length ∧
      (∀ t, t < preds.length →
        preds.get? t = forecastAt fit fc order (X.take (3 * X.length / 4))
          (X.drop (3 * X.length / 4)) t) ∧
      score = mse (X.drop (3 * X.length / 4)) preds := by
  simp only [evaluate_arima_model] at h
  rcases hw : walkForward fit fc order (X.take (3 * X.length / 4))
      (X.drop (3 * X.length / 4)) none [] with _ | res
  · rw [hw] at h; exact absurd h (by simp)
  · rw [hw] at h
    simp only [Option.map_some'] at h
    injection h with h2
    obtain ⟨hs, _⟩ := Prod.mk.inj h2
    obtain ⟨hlen, hget, _, _⟩ := walkForward_run fit fc hw
    refine ⟨res.1, hlen, ?_, hs.symm⟩
    intro t ht
    exact hget t (hlen ▸ ht)

/-- Claim C6, witness at the series [1, 2, 3, 4] (train [1, 2, 3],
test [4]). -/
theorem claim6_walk_forward_mse_witness :
    ∃ (score : ℚ) (m : List ℚ),
      evaluate_arima_model recFit recFc [1, 2, 3, 4] (0, 0, 0)
        = some (score, m) ∧
      ∃ preds : List ℚ,
        preds.length = ([(4 : ℚ)]).length ∧
        (∀ t, t < preds.length →
          preds.get? t = forecastAt recFit recFc (0, 0, 0) [1, 2, 3] [4] t) ∧
        score = mse [4] preds := by
  obtain ⟨preds, hl, hg, hs⟩ := claim6_walk_forward_mse recFit recFc
    [1, 2, 3, 4] (0, 0, 0) _ _ rfl
  exact ⟨_, _, rfl, preds, hl, hg, hs⟩

/-- Claim C7: a candidate whose evaluation raises is absorbed at the
single-candidate level: the grid fold over any enumeration containing it
equals the fold with that candidate removed — the failure does not change
the best-so-far and all remaining candidates are still evaluated. -/
theorem claim7_failed_candidate_skipped (X : List ℚ)
    (l₁ l₂ : List ArimaOrder) (c : ArimaOrder)
    (h : evaluate_arima_model fit fc X c = none) :
    searchBest fit fc X (l₁ ++ c :: l₂) = searchBest fit fc X (l₁ ++ l₂) := by
  rw [searchBest, searchBest, List.foldl_append, List.foldl_append,
    List.foldl_cons, searchStep_none fit fc h]

/-- Claim C7, witness: order (1, 0, 0) raises under pickyFit and its
presence in the middle of the grid does not change the search result. -/
theorem claim7_failed_candidate_skipped_witness :
    searchBest pickyFit recFc [1, 2, 3, 4]
        ([(0, 0, 0)] ++ (1, 0, 0) :: [(0, 1, 0)])
      = searchBest pickyFit recFc [1, 2, 3, 4] ([(0, 0, 0)] ++ [(0, 1, 0)]) :=
  claim7_failed_candidate_skipped pickyFit recFc [1, 2, 3, 4]
    [(0, 0, 0)] [(0, 1, 0)] (1, 0, 0) (by decide)

/-- Claim C8: every record emitted by the Forecast Aggregator carries
lower_bound = prediction − 1.96 · std_error and upper_bound =
prediction + 1.96 · std_error, in exact arithmetic. -/
theorem claim8_confidence_bounds (fs : ℕ) (md : List Row)
    (p_values d_values q_values : List ℕ) (recs : List MetaRow)
    (h : model fit fc fs md p_values d_values q_values = some recs) :
    ∀ r ∈ recs,
      r.lower_bound = r.prediction - 196 / 100 * r.std_error ∧
      r.upper_bound = r.prediction + 196 / 100 * r.std_error :=
  modelLoop_bounds fit fc fs md p_values d_values q_values
    (sortedEntities md) recs h

/-- Claim C8, witness: a one-entity batch that completes. -/
theorem claim8_confidence_bounds_witness :
    ∃ recs : List MetaRow,
      model recFit recFc 0 [⟨1, 0, 1⟩, ⟨1, 1, 2⟩, ⟨1, 2, 3⟩, ⟨1, 3, 4⟩]
        [0] [0] [0] = some recs ∧
      ∀ r ∈ recs,
        r.lower_bound = r.prediction - 196 / 100 * r.std_error ∧
        r.upper_bound = r.prediction + 196 / 100 * r.std_error := by
  refine ⟨_, rfl, ?_⟩
  exact claim8_confidence_bounds recFit recFc 0
    [⟨1, 0, 1⟩, ⟨1, 1, 2⟩, ⟨1, 2, 3⟩, ⟨1, 3, 4⟩] [0] [0] [0] _ rfl

/-- Claim C9: when every candidate order in the grid fails to evaluate,
evaluate_models returns the sentinel triple (None, inf, None) — it is a
total function of the embedded semantics, so nothing propagates; a caller
reading the model or order out of the result receives None. -/
theorem claim9_all_fail_sentinel (X : List ℚ)
    (p_values d_values q_values : List ℕ)
    (h : ∀ c ∈ candidateGrid p_values d_values q_values,
      evaluate_arima_model fit fc X c = none) :
    evaluate_models fit fc X p_values d_values q_values
      = (none, ⊤, none) := by
  rw [evaluate_models, searchBest]
  exact foldl_searchStep_all_none fit fc X _ _ h

/-- Claim C9, witness: a fitting routine that always raises. -/
theorem claim9_all_fail_sentinel_witness :
    evaluate_models failFit recFc [1, 2, 3] [0] [0] [0]
      = (none, ⊤, none) :=
  claim9_all_fail_sentinel failFit recFc [1, 2, 3] [0] [0] [0] (by decide)

/-- Claim C10: the minimum-history filter counts raw input rows, before
duplicate (entity, period) rows are collapsed by the groupby sum: an
entity with more than 5 rows before the cutoff but at most 5 distinct
periods survives the filter yet appears with fewer than 6 points. -/
theorem claim10_raw_row_count_filter (fs : ℕ) (data : List Row) (e : ℕ)
    (h1 : 5 < periodRowCount fs data e)
    (h2 : distinctPeriodCount fs data e ≤ 5) :
    (∃ r ∈ transform fs data, r.profile_name = e) ∧
    ((transform fs data).filter fun r => r.profile_name = e).length < 6 := by
  refine ⟨(transform_mem_iff fs data e).mpr h1, ?_⟩
  have hle := transform_entity_row_count fs data e
  omega

/-- Claim C10, witness: entity 7 has 6 raw rows on only 2 distinct weeks. -/
theorem claim10_raw_row_count_filter_witness :
    (∃ r ∈ transform 10
        [⟨7, 0, 1⟩, ⟨7, 0, 1⟩, ⟨7, 0, 1⟩, ⟨7, 1, 1⟩, ⟨7, 1, 1⟩, ⟨7, 1, 1⟩],
      r.profile_name = 7) ∧
    ((transform 10
        [⟨7, 0, 1⟩, ⟨7, 0, 1⟩, ⟨7, 0, 1⟩, ⟨7, 1, 1⟩, ⟨7, 1, 1⟩, ⟨7, 1, 1⟩]).filter
      fun r => r.profile_name = 7).length < 6 :=
  claim10_raw_row_count_filter 10
    [⟨7, 0, 1⟩, ⟨7, 0, 1⟩, ⟨7, 0, 1⟩, ⟨7, 1, 1⟩, ⟨7, 1, 1⟩, ⟨7, 1, 1⟩] 7
    (by decide) (by decide)

end ZoloDW
